import Mathlib

/-!
Verification of the dewy-compiler-compiler meta-grammar front-end utilities:
a shallow embedding of `src/compiler/reduction.c` and `src/compiler/ustring.c`.

Modelling conventions:
* A C `uint32_t*` zero-terminated code-point string is a `List Nat` holding the
  buffer contents in front of the terminator; functions that scan until the
  terminator stop at the first `0` element or at the end of the list.
* Machine integers are `Nat` with explicit `% 2 ^ 64` (u64) or `% 2 ^ 32` (u32)
  where overflow can occur.
* Printing functions are modelled as pure functions returning the emitted
  stream: `put_unicode` returns the emitted UTF-8 bytes (`none` on the error
  branch, which prints a diagnostic instead of an encoding), and the
  `reduction_*` printers return the emitted character (code-point) stream.
* External collaborators that live outside the provided sources
  (`hash_uint_sequence`, the metaparser symbol table, the digit-value helpers)
  are abstracted as parameters or modelled from the spec, as noted on each
  definition.
-/

/-- The record from `reduction.h`/`reduction.c`: a pair of `uint64_t` fields
`head_idx` and `length`. -/
structure reduction where
  head_idx : Nat
  length : Nat
deriving DecidableEq

/-- `new_reduction` from reduction.c: allocates a record and stores both fields. -/
def new_reduction (head_idx : Nat) (length : Nat) : reduction :=
  { head_idx := head_idx, length := length }

/-- `reduction_equals` from reduction.c:
`left->length == right->length && left->head_idx == right->head_idx`. -/
def reduction_equals (left : reduction) (right : reduction) : Bool :=
  left.length == right.length && left.head_idx == right.head_idx

/-- `reduction_hash` from reduction.c builds the sequence `{r->length, r->head_idx}`
and passes it to `hash_uint_sequence` (defined in `utilities.c`, outside the
provided sources); the hash function is therefore abstracted as the parameter
`hashSeq`, applied to exactly the sequence the source builds. -/
def reduction_hash (hashSeq : List Nat → Nat) (r : reduction) : Nat :=
  hashSeq [r.length, r.head_idx]

/-- Code points of a Lean string literal, used to transcribe the ASCII text a
`printf` format string emits. -/
def strCodes (s : String) : List Nat :=
  s.data.map Char.toNat

/-- Character stream printf emits for a `%PRIu64` conversion: the decimal
rendering of the value. -/
def natDecCodes (n : Nat) : List Nat :=
  strCodes (Nat.repr n)

/-- `ustring_len` from ustring.c: `while (string[length]) length++;` — the
number of code points before the terminator. -/
def ustring_len (s : List Nat) : Nat :=
  (s.takeWhile (· ≠ 0)).length

/-- Wrapped u32 subtraction: in `ustring_cmp` the C expression `l - r` on
`uint32_t` operands wraps modulo `2 ^ 32` and is then zero-extended to the
`int64_t` return value. -/
def u32_sub (l : Nat) (r : Nat) : Nat :=
  (l % 4294967296 + (4294967296 - r % 4294967296)) % 4294967296

/-- `ustring_cmp` from ustring.c: strcmp-style loop; reads `l`, `r`, breaks when
`l == 0`, continues while `l == r`, and returns `l - r` (wrapped, see
`u32_sub`). Reading past the end of the list models reading the terminator. -/
def ustring_cmp : List Nat → List Nat → Nat
  | [], [] => u32_sub 0 0
  | [], r :: _ => u32_sub 0 r
  | l :: _, [] => if l = 0 then u32_sub 0 0 else u32_sub l 0
  | l :: ls, r :: rs =>
    if l = 0 then u32_sub 0 r
    else if l = r then ustring_cmp ls rs
    else u32_sub l r

/-- `ustring_clone` from ustring.c: `while ((*ptr++ = *string++));` — copies the
code points up to and including the terminator into a fresh buffer; the fresh
buffer's contents before its terminator. -/
def ustring_clone (s : List Nat) : List Nat :=
  s.takeWhile (· ≠ 0)

/-- Modelled from the spec: `dec_digit_to_value` lives in `utilities.c`, which is
not among the provided sources; the spec's numeric-literal section says decimal
literals are evaluated digit by digit, so the digits `'0'..'9'` map to `0..9`. -/
def dec_digit_to_value (c : Nat) : Nat :=
  if 48 ≤ c ∧ c ≤ 57 then c - 48 else 0

/-- Modelled from the spec: `hex_digit_to_value` lives in `utilities.c`, which is
not among the provided sources; hexadecimal digits `'0'..'9'`, `'a'..'f'`,
`'A'..'F'` map to `0..15`. -/
def hex_digit_to_value (c : Nat) : Nat :=
  if 48 ≤ c ∧ c ≤ 57 then c - 48
  else if 97 ≤ c ∧ c ≤ 102 then c - 87
  else if 65 ≤ c ∧ c ≤ 70 then c - 55
  else 0

/-- `ustring_parse_base` from ustring.c: iterates `i` from `len - 1` down to `0`
maintaining u64 accumulators `val += f(str[i]) * pow; pow *= base;` (both wrap
modulo `2 ^ 64`).  `str[i]` is a `uint32_t` passed to a function whose parameter
type is `char`, hence the `% 256` truncation.  The embedding folds over the
string reversed, which visits exactly the indices `len - 1, …, 0` in order. -/
def ustring_parse_base (s : List Nat) (base : Nat) (f : Nat → Nat) : Nat :=
  (((s.takeWhile (· ≠ 0)).reverse).foldl
    (fun vp c => ((vp.1 + f (c % 256) * vp.2) % 2 ^ 64, vp.2 * base % 2 ^ 64))
    (0, 1)).1

/-- `ustring_parse_hex` from ustring.c. -/
def ustring_parse_hex (s : List Nat) : Nat :=
  ustring_parse_base s 16 hex_digit_to_value

/-- `ustring_parse_dec` from ustring.c. -/
def ustring_parse_dec (s : List Nat) : Nat :=
  ustring_parse_base s 10 dec_digit_to_value

/-- Modelled from the spec: the mathematical value of a decimal count literal
(the spec's **Numeric literals** section: positional base-10 evaluation of the
digit string), used to compare the code's behaviour with the spec's
`numeric_overflow` requirement. -/
def decimal_value (s : List Nat) : Nat :=
  s.foldl (fun acc c => 10 * acc + (c - 48)) 0

/-- `escape_to_unicode` from ustring.c: the `switch` maps the seven recognized
escape letters to their control characters and every other input to itself
(`'a' = 97, 'b' = 98, 't' = 116, 'n' = 110, 'v' = 118, 'f' = 102, 'r' = 114`). -/
def escape_to_unicode (c : Nat) : Nat :=
  if c = 97 then 0x7
  else if c = 98 then 0x8
  else if c = 116 then 0x9
  else if c = 110 then 0xA
  else if c = 118 then 0xB
  else if c = 102 then 0xC
  else if c = 114 then 0xD
  else c

/-- `AUGMENT_CHAR` from ustring.c: `0x200000`, the first invalid code point. -/
def AUGMENT_CHAR : Nat := 0x200000

/-- `put_unicode` from ustring.c: the UTF-8 bytes put to the terminal for the
code point `c`, high byte first, with the masks and shifts of the source; the
final `else` branch prints an error diagnostic instead of an encoding and is
modelled as `none`. -/
def put_unicode (c : Nat) : Option (List Nat) :=
  if c < 0x80 then
    some [c &&& 0x7F]
  else if c < 0x800 then
    some [((c >>> 6) &&& 0xDF) ||| 0xC0, (c &&& 0x3F) ||| 0x80]
  else if c < 0x10000 then
    some [((c >>> 12) &&& 0x0F) ||| 0xE0, ((c >>> 6) &&& 0x3F) ||| 0x80,
          (c &&& 0x3F) ||| 0x80]
  else if c ≤ 0x1FFFFF then
    some [((c >>> 18) &&& 0x07) ||| 0xF0, ((c >>> 12) &&& 0x3F) ||| 0x80,
          ((c >>> 6) &&& 0x3F) ||| 0x80, (c &&& 0x3F) ||| 0x80]
  else
    none

/-- `eat_utf8` from ustring.c: reads bytes from the front of the buffer
(`uint8_t b = **str_ptr`, hence `% 256`), advancing the pointer as the source
does, and returns the decoded code point together with the rest of the buffer
(the advanced pointer).  All failure branches return 0 after the advances the
source has already performed.  Reading past the end of the list models reading
the terminator byte 0. -/
def eat_utf8 (s : List Nat) : Nat × List Nat :=
  let b0 := s.headD 0 % 256
  let s1 := s.tail
  if b0 = 0 then (0, s1)
  else if b0 >>> 7 = 0x00 then (b0, s1)
  else if b0 >>> 5 = 0x06 then
    let b1 := s1.headD 0 % 256
    let s2 := s1.tail
    if b1 >>> 6 = 0x02 then (((b0 &&& 0x1F) <<< 6) ||| (b1 &&& 0x3F), s2)
    else (0, s2)
  else if b0 >>> 4 = 0x0E then
    let b1 := s1.headD 0 % 256
    let s2 := s1.tail
    if b1 >>> 6 = 0x02 then
      let b2 := s2.headD 0 % 256
      let s3 := s2.tail
      if b2 >>> 6 = 0x02 then
        ((((b0 &&& 0x0F) <<< 12) ||| ((b1 &&& 0x3F) <<< 6)) ||| (b2 &&& 0x3F), s3)
      else (0, s3)
    else (0, s2)
  else if b0 >>> 3 = 0x1E then
    let b1 := s1.headD 0 % 256
    let s2 := s1.tail
    if b1 >>> 6 = 0x02 then
      let b2 := s2.headD 0 % 256
      let s3 := s2.tail
      if b2 >>> 6 = 0x02 then
        let b3 := s3.headD 0 % 256
        let s4 := s3.tail
        if b3 >>> 6 = 0x02 then
          (((((b0 &&& 0x07) <<< 18) ||| ((b1 &&& 0x3F) <<< 12)) |||
            ((b2 &&& 0x3F) <<< 6)) ||| (b3 &&& 0x3F), s4)
        else (0, s4)
      else (0, s3)
    else (0, s2)
  else (0, s1)

/-- `unicode_str` from ustring.c: NUL prints the empty-string/set marker U+2300,
`AUGMENT_CHAR` prints the end-of-rule marker U+1F596, anything else prints
itself via `put_unicode`. -/
def unicode_str (c : Nat) : Option (List Nat) :=
  if c = 0 then put_unicode 0x2300
  else if c = AUGMENT_CHAR then put_unicode 0x1F596
  else put_unicode c

/-- Modelled from the spec: `metaparser_get_symbol` and `obj_str` live in
`metaparser.c`/`object.c`, outside the provided sources.  The spec's symbol
table collaborator provides `get_symbol(idx) → symbol` where the symbol carries
a code-point-string name; the symbol table is abstracted as a function from
index to name, and `obj_str` on a symbol prints that name's code points up to
the terminator. -/
def obj_str (name : List Nat) : List Nat :=
  name.takeWhile (· ≠ 0)

/-- `reduction_str` from reduction.c: prints `R(`, then the head symbol's name
via `metaparser_get_symbol`/`obj_str`, then `, <length>)`; modelled as the
emitted character stream, with the symbol table abstracted as `tbl`. -/
def reduction_str (tbl : Nat → List Nat) (r : reduction) : List Nat :=
  strCodes "R(" ++ obj_str (tbl r.head_idx) ++ strCodes ", " ++
    natDecCodes r.length ++ strCodes ")"

/-- The `snprintf("", 0, "R(, %PRIu64)", r->length)` call in `reduction_strlen`:
the width of the formatted text. -/
def snprintf_reduction_width (n : Nat) : Nat :=
  (strCodes "R(, " ++ natDecCodes n ++ strCodes ")").length

/-- `reduction_strlen` from reduction.c: the head symbol name's `ustring_len`
plus the snprintf width of `R(, <length>)`. -/
def reduction_strlen (tbl : Nat → List Nat) (r : reduction) : Nat :=
  ustring_len (tbl r.head_idx) + snprintf_reduction_width r.length

/-- `reduction_repr` from reduction.c:
`printf("reduction{head_idx: %PRIu64, length: %PRIu64}", …)` as the emitted
character stream. -/
def reduction_repr (r : reduction) : List Nat :=
  strCodes "reduction\x7bhead_idx: " ++ natDecCodes r.head_idx ++
    strCodes ", length: " ++ natDecCodes r.length ++ strCodes "\x7d"

/-- State-passing embedding of calling `reduction_str`: the printed stream
together with the record's contents after the call (the source performs no
store through `r`). -/
def reduction_str_call (tbl : Nat → List Nat) (r : reduction) :
    List Nat × reduction :=
  (reduction_str tbl r, r)

/-- State-passing embedding of calling `reduction_strlen`. -/
def reduction_strlen_call (tbl : Nat → List Nat) (r : reduction) :
    Nat × reduction :=
  (reduction_strlen tbl r, r)

/-- State-passing embedding of calling `reduction_repr`. -/
def reduction_repr_call (r : reduction) : List Nat × reduction :=
  (reduction_repr r, r)

/-- State-passing embedding of calling `reduction_equals` on two records. -/
def reduction_equals_call (left : reduction) (right : reduction) :
    Bool × reduction × reduction :=
  (reduction_equals left right, left, right)

/-- State-passing embedding of calling `reduction_hash`. -/
def reduction_hash_call (hashSeq : List Nat → Nat) (r : reduction) :
    Nat × reduction :=
  (reduction_hash hashSeq r, r)

/-!  Theorems  -/

/-- C1: reduction equality is reflexive, symmetric and transitive, and the hash
is congruent with it: equal records produce equal `hash_uint_sequence` inputs,
hence equal hashes for every hash function. -/
theorem reduction_equals_equivalence_and_hash_congruence :
    (∀ a : reduction, reduction_equals a a = true) ∧
    (∀ a b : reduction, reduction_equals a b = true →
      reduction_equals b a = true) ∧
    (∀ a b c : reduction, reduction_equals a b = true →
      reduction_equals b c = true → reduction_equals a c = true) ∧
    (∀ (hashSeq : List Nat → Nat) (a b : reduction),
      reduction_equals a b = true →
      reduction_hash hashSeq a = reduction_hash hashSeq b) := by
  refine ⟨?_, ?_, ?_, ?_⟩
  · intro a
    simp [reduction_equals]
  · intro a b h
    simp only [reduction_equals, Bool.and_eq_true, beq_iff_eq] at h ⊢
    omega
  · intro a b c h1 h2
    simp only [reduction_equals, Bool.and_eq_true, beq_iff_eq] at h1 h2 ⊢
    omega
  · intro hashSeq a b h
    simp only [reduction_equals, Bool.and_eq_true, beq_iff_eq] at h
    simp [reduction_hash, h.1, h.2]

/-- Witness for C1 at concrete records and a concrete hash function. -/
theorem reduction_equals_equivalence_and_hash_congruence_witness :
    reduction_equals (new_reduction 2 5) (new_reduction 2 5) = true ∧
    reduction_hash (fun l => l.sum) (new_reduction 2 5) =
      reduction_hash (fun l => l.sum) (new_reduction 2 5) := by
  refine ⟨?_, ?_⟩
  · exact reduction_equals_equivalence_and_hash_congruence.2.1
      (new_reduction 2 5) (new_reduction 2 5) (by decide)
  · exact reduction_equals_equivalence_and_hash_congruence.2.2.2
      (fun l => l.sum) (new_reduction 2 5) (new_reduction 2 5) (by decide)

/-- C2: `escape_to_unicode` maps the seven escape letters to U+07..U+0D and
every other code point (backslash, quotes, brackets, hyphen included) to
itself. -/
theorem escape_to_unicode_spec :
    escape_to_unicode 97 = 0x7 ∧ escape_to_unicode 98 = 0x8 ∧
    escape_to_unicode 116 = 0x9 ∧ escape_to_unicode 110 = 0xA ∧
    escape_to_unicode 118 = 0xB ∧ escape_to_unicode 102 = 0xC ∧
    escape_to_unicode 114 = 0xD ∧
    escape_to_unicode 92 = 92 ∧ escape_to_unicode 39 = 39 ∧
    escape_to_unicode 34 = 34 ∧ escape_to_unicode 91 = 91 ∧
    escape_to_unicode 93 = 93 ∧ escape_to_unicode 45 = 45 ∧
    (∀ c : Nat, c ∉ ([97, 98, 116, 110, 118, 102, 114] : List Nat) →
      escape_to_unicode c = c) := by
  refine ⟨by decide, by decide, by decide, by decide, by decide, by decide,
    by decide, by decide, by decide, by decide, by decide, by decide,
    by decide, ?_⟩
  intro c hc
  simp only [List.mem_cons, List.not_mem_nil, or_false, not_or] at hc
  obtain ⟨h1, h2, h3, h4, h5, h6, h7⟩ := hc
  simp [escape_to_unicode, h1, h2, h3, h4, h5, h6, h7]

/-- Witness for C2 at the concrete non-escape code point 120. -/
theorem escape_to_unicode_spec_witness : escape_to_unicode 120 = 120 :=
  escape_to_unicode_spec.2.2.2.2.2.2.2.2.2.2.2.2.2 120 (by decide)

/-- C5: `new_reduction(head_idx, length)` renders through `reduction_repr` as
`reduction{head_idx: <head_idx>, length: <length>}` and through `reduction_str`
as `R(<name of symbol head_idx>, <length>)`; in particular `new_reduction 7 3`
gives `reduction{head_idx: 7, length: 3}` and `R(<name_of_symbol_7>, 3)`. -/
theorem new_reduction_repr_str (tbl : Nat → List Nat) (h l : Nat) :
    reduction_repr (new_reduction h l) =
      strCodes "reduction\x7bhead_idx: " ++ natDecCodes h ++
        strCodes ", length: " ++ natDecCodes l ++ strCodes "\x7d" ∧
    reduction_str tbl (new_reduction h l) =
      strCodes "R(" ++ obj_str (tbl h) ++ strCodes ", " ++ natDecCodes l ++
        strCodes ")" ∧
    reduction_repr (new_reduction 7 3) =
      strCodes "reduction\x7bhead_idx: 7, length: 3\x7d" ∧
    reduction_str tbl (new_reduction 7 3) =
      strCodes "R(" ++ obj_str (tbl 7) ++ strCodes ", 3)" := by
  refine ⟨rfl, rfl, by decide, ?_⟩
  show strCodes "R(" ++ obj_str (tbl 7) ++ strCodes ", " ++ natDecCodes 3 ++
      strCodes ")" = strCodes "R(" ++ obj_str (tbl 7) ++ strCodes ", 3)"
  have h3 : natDecCodes 3 = [51] := by decide
  simp [h3, strCodes]

/-- C6: `reduction_strlen` equals the character count of the `reduction_str`
rendering: the head name's code-point length plus the width of `R(, <length>)`. -/
theorem reduction_strlen_eq_str_length (tbl : Nat → List Nat) (r : reduction) :
    reduction_strlen tbl r = (reduction_str tbl r).length := by
  simp only [reduction_strlen, reduction_str, snprintf_reduction_width,
    ustring_len, obj_str, List.length_append]
  have h1 : (strCodes "R(, ").length = 4 := by decide
  have h2 : (strCodes ")").length = 1 := by decide
  have h3 : (strCodes "R(").length = 2 := by decide
  have h4 : (strCodes ", ").length = 2 := by decide
  omega

/-- C8: the record is immutable: each of the five operations, embedded with
explicit state passing of the record(s) it receives, returns the record with
`head_idx` and `length` unchanged. -/
theorem reduction_operations_frame (tbl : Nat → List Nat)
    (hashSeq : List Nat → Nat) (a b r : reduction) :
    (reduction_str_call tbl r).2.head_idx = r.head_idx ∧
    (reduction_str_call tbl r).2.length = r.length ∧
    (reduction_strlen_call tbl r).2.head_idx = r.head_idx ∧
    (reduction_strlen_call tbl r).2.length = r.length ∧
    (reduction_repr_call r).2.head_idx = r.head_idx ∧
    (reduction_repr_call r).2.length = r.length ∧
    (reduction_equals_call a b).2.1.head_idx = a.head_idx ∧
    (reduction_equals_call a b).2.1.length = a.length ∧
    (reduction_equals_call a b).2.2.head_idx = b.head_idx ∧
    (reduction_equals_call a b).2.2.length = b.length ∧
    (reduction_hash_call hashSeq r).2.head_idx = r.head_idx ∧
    (reduction_hash_call hashSeq r).2.length = r.length := by
  refine ⟨rfl, rfl, rfl, rfl, rfl, rfl, rfl, rfl, rfl, rfl, rfl, rfl⟩

/-- In-bounds `getD` is an element of the list. -/
theorem getD_mem_of_lt (s : List Nat) (i : Nat) (h : i < s.length) :
    s.getD i 0 ∈ s := by
  rw [List.getD_eq_getElem?_getD, List.getElem?_eq_getElem h]
  exact List.getElem_mem h

/-- Loop invariant of `ustring_parse_base`: folding the step over a digit list
starting from reduced accumulators computes the positional sum modulo `2^64`. -/
theorem parse_fold_spec (f : Nat → Nat) (base : Nat) :
    ∀ (l : List Nat) (v p : Nat),
    (l.foldl
      (fun vp c => ((vp.1 + f (c % 256) * vp.2) % 2 ^ 64, vp.2 * base % 2 ^ 64))
      (v % 2 ^ 64, p % 2 ^ 64)).1 =
    (v + ∑ j ∈ Finset.range l.length, f (l.getD j 0 % 256) * (p * base ^ j)) %
      2 ^ 64 := by
  intro l
  induction l with
  | nil => intro v p; simp
  | cons c t ih =>
    intro v p
    have hv : (v % 2 ^ 64 + f (c % 256) * (p % 2 ^ 64)) % 2 ^ 64 =
        (v + f (c % 256) * p) % 2 ^ 64 := by
      have h := (Nat.mod_modEq v (2 ^ 64)).add
        ((Nat.ModEq.refl (f (c % 256))).mul (Nat.mod_modEq p (2 ^ 64)))
      exact h
    have hp : p % 2 ^ 64 * base % 2 ^ 64 = p * base % 2 ^ 64 := by
      have h := (Nat.mod_modEq p (2 ^ 64)).mul (Nat.ModEq.refl base)
      exact h
    simp only [List.foldl_cons]
    rw [show ((v % 2 ^ 64 + f (c % 256) * (p % 2 ^ 64)) % 2 ^ 64,
          p % 2 ^ 64 * base % 2 ^ 64) =
        ((v + f (c % 256) * p) % 2 ^ 64, p * base % 2 ^ 64) from by
      rw [hv, hp]]
    rw [ih (v + f (c % 256) * p) (p * base)]
    congr 1
    rw [List.length_cons, Finset.sum_range_succ']
    simp only [List.getD_cons_zero, List.getD_cons_succ, pow_zero, mul_one,
      pow_succ]
    have hsum : ∑ j ∈ Finset.range t.length,
        f (t.getD j 0 % 256) * (p * (base ^ j * base)) =
        ∑ j ∈ Finset.range t.length,
        f (t.getD j 0 % 256) * (p * base * base ^ j) :=
      Finset.sum_congr rfl (fun j _ => by ring)
    rw [hsum]
    ring

/-- `ustring_parse_base` on a NUL-free ASCII string is the right-to-left
positional sum modulo `2^64`. -/
theorem parse_base_sum (s : List Nat) (base : Nat) (f : Nat → Nat)
    (hs : ∀ c ∈ s, 0 < c ∧ c < 128) :
    ustring_parse_base s base f =
      (∑ i ∈ Finset.range s.length,
        f (s.getD i 0) * base ^ (s.length - 1 - i)) % 2 ^ 64 := by
  have htake : s.takeWhile (· ≠ 0) = s :=
    List.takeWhile_eq_self_iff.mpr (fun c hc => by
      have := hs c hc
      simp only [ne_eq, decide_eq_true_eq]
      omega)
  unfold ustring_parse_base
  rw [htake]
  rw [show ((0 : Nat), (1 : Nat)) = ((0 : Nat) % 2 ^ 64, (1 : Nat) % 2 ^ 64)
    from by norm_num]
  rw [parse_fold_spec f base s.reverse 0 1]
  simp only [List.length_reverse, zero_add, one_mul]
  congr 1
  conv_rhs => rw [← Finset.sum_range_reflect]
  apply Finset.sum_congr rfl
  intro j hj
  have hj' : j < s.length := Finset.mem_range.mp hj
  have hidx : s.length - 1 - j < s.length := by omega
  have hrev : s.reverse.getD j 0 = s.getD (s.length - 1 - j) 0 := by
    rw [List.getD_eq_getElem?_getD, List.getD_eq_getElem?_getD,
      List.getElem?_eq_getElem (by simpa using hj'),
      List.getElem?_eq_getElem hidx]
    simp [List.getElem_reverse]
  have hmod : s.getD (s.length - 1 - j) 0 % 256 = s.getD (s.length - 1 - j) 0 := by
    have hmem := getD_mem_of_lt s (s.length - 1 - j) hidx
    have := hs _ hmem
    omega
  have hexp : s.length - 1 - (s.length - 1 - j) = j := by omega
  rw [hrev, hmod, hexp]

/-- C4: `ustring_parse_base` evaluates digit-by-digit right-to-left positionally
and returns `∑ f(s[i]) * base^(n-1-i)` modulo `2^64`; `ustring_parse_dec` and
`ustring_parse_hex` instantiate it with base 10 and base 16. -/
theorem ustring_parse_base_positional (s : List Nat) (base : Nat)
    (f : Nat → Nat) (hs : ∀ c ∈ s, 0 < c ∧ c < 128) :
    ustring_parse_base s base f =
      (∑ i ∈ Finset.range s.length,
        f (s.getD i 0) * base ^ (s.length - 1 - i)) % 2 ^ 64 ∧
    ustring_parse_dec s = ustring_parse_base s 10 dec_digit_to_value ∧
    ustring_parse_hex s = ustring_parse_base s 16 hex_digit_to_value :=
  ⟨parse_base_sum s base f hs, rfl, rfl⟩

/-- Witness for C4 on the digit string "42". -/
theorem ustring_parse_base_positional_witness :
    (∀ c ∈ ([52, 50] : List Nat), 0 < c ∧ c < 128) ∧
    ustring_parse_base [52, 50] 10 dec_digit_to_value =
      (∑ i ∈ Finset.range ([52, 50] : List Nat).length,
        dec_digit_to_value (([52, 50] : List Nat).getD i 0) *
          10 ^ (([52, 50] : List Nat).length - 1 - i)) % 2 ^ 64 :=
  ⟨by decide,
    (ustring_parse_base_positional [52, 50] 10 dec_digit_to_value (by decide)).1⟩

/-- Horner evaluation of `decimal_value` expands to the positional sum. -/
theorem decimal_value_horner :
    ∀ (s : List Nat) (acc : Nat),
    s.foldl (fun a c => 10 * a + (c - 48)) acc =
      acc * 10 ^ s.length +
        ∑ i ∈ Finset.range s.length,
          (s.getD i 0 - 48) * 10 ^ (s.length - 1 - i) := by
  intro s
  induction s with
  | nil => intro acc; simp
  | cons c t ih =>
    intro acc
    rw [List.foldl_cons, ih (10 * acc + (c - 48))]
    rw [List.length_cons, Finset.sum_range_succ']
    simp only [List.getD_cons_zero, List.getD_cons_succ]
    have he : ∑ i ∈ Finset.range t.length,
        (t.getD i 0 - 48) * 10 ^ (t.length + 1 - 1 - (i + 1)) =
        ∑ i ∈ Finset.range t.length,
        (t.getD i 0 - 48) * 10 ^ (t.length - 1 - i) :=
      Finset.sum_congr rfl (fun i _ => by
        rw [show t.length + 1 - 1 - (i + 1) = t.length - 1 - i from by omega])
    rw [he, show t.length + 1 - 1 - 0 = t.length from by omega]
    ring

/-- C3 counterexample: on the decimal literal for `2^64` (the smallest value
that does not fit in u64), `ustring_parse_dec` returns the wrapped value `0`
— it has no error path — instead of reporting `numeric_overflow`. -/
theorem ustring_parse_dec_overflow_counterexample :
    decimal_value (strCodes "18446744073709551616") = 2 ^ 64 ∧
    ustring_parse_dec (strCodes "18446744073709551616") = 0 ∧
    ustring_parse_dec (strCodes "18446744073709551616") ≠
      decimal_value (strCodes "18446744073709551616") := by
  refine ⟨by decide, by decide, by decide⟩

/-- C3 (amended): numeric-literal parsing performs u64 wraparound arithmetic
and returns the mathematical value of the literal modulo `2^64`; a count
literal that does not fit in u64 silently wraps, and no error is reported by
`ustring_parse_dec`/`ustring_parse_hex`/`ustring_parse_base`. -/
theorem ustring_parse_dec_wraps (s : List Nat)
    (hs : ∀ c ∈ s, 48 ≤ c ∧ c ≤ 57) :
    ustring_parse_dec s = decimal_value s % 2 ^ 64 := by
  have hs' : ∀ c ∈ s, 0 < c ∧ c < 128 := fun c hc => by
    have := hs c hc; omega
  show ustring_parse_base s 10 dec_digit_to_value = decimal_value s % 2 ^ 64
  rw [parse_base_sum s 10 dec_digit_to_value hs']
  unfold decimal_value
  rw [decimal_value_horner s 0]
  congr 1
  simp only [zero_mul, zero_add]
  apply Finset.sum_congr rfl
  intro i hi
  have hmem := getD_mem_of_lt s i (Finset.mem_range.mp hi)
  have hd := hs _ hmem
  unfold dec_digit_to_value
  rw [if_pos hd]

/-- Witness for C3's amended theorem on the digit string "99". -/
theorem ustring_parse_dec_wraps_witness :
    (∀ c ∈ ([57, 57] : List Nat), 48 ≤ c ∧ c ≤ 57) ∧
    ustring_parse_dec [57, 57] = decimal_value [57, 57] % 2 ^ 64 :=
  ⟨by decide, ustring_parse_dec_wraps [57, 57] (by decide)⟩

/-- C10: cloning a zero-terminated code-point string preserves `ustring_len` and
compares equal to the original under `ustring_cmp` (the original, being an
argument of a pure function, is unchanged). -/
theorem ustring_clone_len_cmp (s : List Nat) :
    ustring_len (ustring_clone s) = ustring_len s ∧
    ustring_cmp (ustring_clone s) s = 0 := by
  constructor
  · simp [ustring_len, ustring_clone, List.takeWhile_takeWhile]
  · induction s with
    | nil => simp [ustring_clone, ustring_cmp, u32_sub]
    | cons c t ih =>
      by_cases hc : c = 0
      · subst hc
        simp [ustring_clone, ustring_cmp, u32_sub]
      · simpa [ustring_clone, ustring_cmp, hc] using ih

/-- Right shift by a literal is division: `x >>> 3 = x / 8`. -/
theorem shiftr3 (x : Nat) : x >>> 3 = x / 8 := by
  rw [Nat.shiftRight_eq_div_pow]

/-- Right shift by a literal is division: `x >>> 4 = x / 16`. -/
theorem shiftr4 (x : Nat) : x >>> 4 = x / 16 := by
  rw [Nat.shiftRight_eq_div_pow]

/-- Right shift by a literal is division: `x >>> 5 = x / 32`. -/
theorem shiftr5 (x : Nat) : x >>> 5 = x / 32 := by
  rw [Nat.shiftRight_eq_div_pow]

/-- Right shift by a literal is division: `x >>> 6 = x / 64`. -/
theorem shiftr6 (x : Nat) : x >>> 6 = x / 64 := by
  rw [Nat.shiftRight_eq_div_pow]

/-- Right shift by a literal is division: `x >>> 7 = x / 128`. -/
theorem shiftr7 (x : Nat) : x >>> 7 = x / 128 := by
  rw [Nat.shiftRight_eq_div_pow]

/-- Right shift by a literal is division: `x >>> 12 = x / 4096`. -/
theorem shiftr12 (x : Nat) : x >>> 12 = x / 4096 := by
  rw [Nat.shiftRight_eq_div_pow]

/-- Right shift by a literal is division: `x >>> 18 = x / 262144`. -/
theorem shiftr18 (x : Nat) : x >>> 18 = x / 262144 := by
  rw [Nat.shiftRight_eq_div_pow]

/-- Masking with a low-bit mask is a remainder: `x &&& 7 = x % 8`. -/
theorem and7 (x : Nat) : x &&& 7 = x % 8 := by
  have h := Nat.and_pow_two_sub_one_eq_mod x 3
  norm_num at h
  exact h

/-- Masking with a low-bit mask is a remainder: `x &&& 15 = x % 16`. -/
theorem and15 (x : Nat) : x &&& 15 = x % 16 := by
  have h := Nat.and_pow_two_sub_one_eq_mod x 4
  norm_num at h
  exact h

/-- Masking with a low-bit mask is a remainder: `x &&& 31 = x % 32`. -/
theorem and31 (x : Nat) : x &&& 31 = x % 32 := by
  have h := Nat.and_pow_two_sub_one_eq_mod x 5
  norm_num at h
  exact h

/-- Masking with a low-bit mask is a remainder: `x &&& 63 = x % 64`. -/
theorem and63 (x : Nat) : x &&& 63 = x % 64 := by
  have h := Nat.and_pow_two_sub_one_eq_mod x 6
  norm_num at h
  exact h

/-- Masking with a low-bit mask is a remainder: `x &&& 127 = x % 128`. -/
theorem and127 (x : Nat) : x &&& 127 = x % 128 := by
  have h := Nat.and_pow_two_sub_one_eq_mod x 7
  norm_num at h
  exact h

/-- The `0xDF` mask in the two-byte branch of `put_unicode` is the identity on
values below 32. -/
theorem land223_of_lt : ∀ x < 32, x &&& 223 = x := by decide

/-- Setting the `0xC0` marker bits on a 5-bit value is addition. -/
theorem lor192_of_lt : ∀ x < 32, x ||| 192 = x + 192 := by decide

/-- Setting the `0x80` continuation marker on a 6-bit value is addition. -/
theorem lor128_of_lt : ∀ x < 64, x ||| 128 = x + 128 := by decide

/-- Setting the `0xE0` marker bits on a 4-bit value is addition. -/
theorem lor224_of_lt : ∀ x < 16, x ||| 224 = x + 224 := by decide

/-- Setting the `0xF0` marker bits on a 3-bit value is addition. -/
theorem lor240_of_lt : ∀ x < 8, x ||| 240 = x + 240 := by decide

/-- Bitwise or of a shifted value with a value below the shift is addition. -/
theorem or_mul_pow_add {z y n : Nat} (h : y < 2 ^ n) :
    z * 2 ^ n ||| y = z * 2 ^ n + y := by
  apply Nat.eq_of_testBit_eq
  intro i
  have hadd : (z * 2 ^ n + y).testBit i =
      if i < n then y.testBit i else z.testBit (i - n) := by
    rw [show z * 2 ^ n + y = 2 ^ n * z + y from by ring]
    exact Nat.testBit_mul_pow_two_add z h i
  rw [hadd, Nat.testBit_or]
  conv_lhs => rw [← Nat.shiftLeft_eq z n]
  rw [Nat.testBit_shiftLeft]
  by_cases hin : i < n
  · simp [hin, Nat.not_le.mpr hin]
  · have hni : n ≤ i := Nat.not_lt.mp hin
    have hy : y.testBit i = false :=
      Nat.testBit_lt_two_pow
        (lt_of_lt_of_le h (Nat.pow_le_pow_right (by norm_num) hni))
    simp [hin, hni, hy]

/-- Numeral instance of `or_mul_pow_add` for the 6-bit shift. -/
theorem or_mul_64_add {z y : Nat} (h : y < 64) : z * 64 ||| y = z * 64 + y := by
  have h64 : (64 : Nat) = 2 ^ 6 := by norm_num
  rw [h64] at h ⊢
  exact or_mul_pow_add h

/-- Numeral instance of `or_mul_pow_add` for the 12-bit shift. -/
theorem or_mul_4096_add {z y : Nat} (h : y < 4096) :
    z * 4096 ||| y = z * 4096 + y := by
  have h4096 : (4096 : Nat) = 2 ^ 12 := by norm_num
  rw [h4096] at h ⊢
  exact or_mul_pow_add h

/-- Numeral instance of `or_mul_pow_add` for the 18-bit shift. -/
theorem or_mul_262144_add {z y : Nat} (h : y < 262144) :
    z * 262144 ||| y = z * 262144 + y := by
  have h262144 : (262144 : Nat) = 2 ^ 18 := by norm_num
  rw [h262144] at h ⊢
  exact or_mul_pow_add h

/-- C7: `AUGMENT_CHAR` is `0x200000`, exactly the first code point the
`put_unicode` encoder rejects; `unicode_str` maps NUL to the empty-string/set
marker glyph U+2300 and `AUGMENT_CHAR` to the end-of-rule marker glyph U+1F596
(two distinct renderings), and renders every other code point as itself via
`put_unicode`. -/
theorem augment_char_and_unicode_str_markers :
    AUGMENT_CHAR = 0x200000 ∧
    (∀ c : Nat, (put_unicode c).isSome ↔ c < AUGMENT_CHAR) ∧
    unicode_str 0 = put_unicode 0x2300 ∧
    unicode_str AUGMENT_CHAR = put_unicode 0x1F596 ∧
    put_unicode 0x2300 ≠ put_unicode 0x1F596 ∧
    (∀ c : Nat, c ≠ 0 → c ≠ AUGMENT_CHAR → unicode_str c = put_unicode c) := by
  refine ⟨rfl, ?_, by decide, by decide, by decide, ?_⟩
  · intro c
    unfold put_unicode AUGMENT_CHAR
    split_ifs with h1 h2 h3 h4 <;> simp <;> omega
  · intro c h0 hA
    simp [unicode_str, h0, hA]

/-- Witness for C7 at the ordinary code point 65. -/
theorem augment_char_and_unicode_str_markers_witness :
    unicode_str 65 = put_unicode 65 :=
  augment_char_and_unicode_str_markers.2.2.2.2.2 65 (by decide) (by decide)

/-- C9: UTF-8 round trip: for every code point below `0x200000`, decoding the
byte sequence `put_unicode` emits returns the code point and advances the input
exactly past those bytes. -/
theorem put_unicode_eat_utf8_roundtrip (c : Nat) (rest bs : List Nat)
    (hc : c < 0x200000) (hbs : put_unicode c = some bs) :
    eat_utf8 (bs ++ rest) = (c, rest) := by
  by_cases h1 : c < 0x80
  · -- one-byte encoding
    simp only [put_unicode] at hbs
    rw [if_pos h1] at hbs
    have hb : c &&& 127 = c := by rw [and127]; omega
    rw [hb] at hbs
    injection hbs with hbs
    subst hbs
    by_cases h0 : c = 0
    · subst h0
      simp [eat_utf8]
    · have hm : c % 256 = c := by omega
      have h7 : c >>> 7 = 0 := by rw [shiftr7]; omega
      simp [eat_utf8, hm, h0, h7]
  · by_cases h2 : c < 0x800
    · -- two-byte encoding
      simp only [put_unicode] at hbs
      rw [if_neg h1, if_pos h2] at hbs
      have e1 : (c >>> 6 &&& 223) ||| 192 = c / 64 + 192 := by
        rw [shiftr6, land223_of_lt (c / 64) (by omega),
          lor192_of_lt (c / 64) (by omega)]
      have e2 : (c &&& 63) ||| 128 = c % 64 + 128 := by
        rw [and63, lor128_of_lt (c % 64) (by omega)]
      rw [e1, e2] at hbs
      injection hbs with hbs
      subst hbs
      have hm0 : (c / 64 + 192) % 256 = c / 64 + 192 := by omega
      have hne0 : ¬(c / 64 + 192 = 0) := by omega
      have h7 : ¬((c / 64 + 192) >>> 7 = 0) := by rw [shiftr7]; omega
      have h5 : (c / 64 + 192) >>> 5 = 6 := by rw [shiftr5]; omega
      have hm1 : (c % 64 + 128) % 256 = c % 64 + 128 := by omega
      have h6 : (c % 64 + 128) >>> 6 = 2 := by rw [shiftr6]; omega
      have f1 : (c / 64 + 192) &&& 31 = c / 64 := by rw [and31]; omega
      have f2 : (c % 64 + 128) &&& 63 = c % 64 := by rw [and63]; omega
      have f3 : (c / 64) <<< 6 = c / 64 * 64 := by rw [Nat.shiftLeft_eq]
      have f4 : c / 64 * 64 ||| c % 64 = c := by
        rw [or_mul_64_add (by omega)]; omega
      simp [eat_utf8, hm0, hne0, h7, h5, hm1, h6, f1, f2, f3, f4]
    · by_cases h3 : c < 0x10000
      · -- three-byte encoding
        simp only [put_unicode] at hbs
        rw [if_neg h1, if_neg h2, if_pos h3] at hbs
        have e1 : (c >>> 12 &&& 15) ||| 224 = c / 4096 + 224 := by
          rw [shiftr12, and15, lor224_of_lt (c / 4096 % 16) (by omega)]
          omega
        have e2 : (c >>> 6 &&& 63) ||| 128 = c / 64 % 64 + 128 := by
          rw [shiftr6, and63, lor128_of_lt (c / 64 % 64) (by omega)]
        have e3 : (c &&& 63) ||| 128 = c % 64 + 128 := by
          rw [and63, lor128_of_lt (c % 64) (by omega)]
        rw [e1, e2, e3] at hbs
        injection hbs with hbs
        subst hbs
        have ha : c / 4096 < 16 := by omega
        have hm0 : (c / 4096 + 224) % 256 = c / 4096 + 224 := by omega
        have hne0 : ¬(c / 4096 + 224 = 0) := by omega
        have h7 : ¬((c / 4096 + 224) >>> 7 = 0) := by rw [shiftr7]; omega
        have h5 : ¬((c / 4096 + 224) >>> 5 = 6) := by rw [shiftr5]; omega
        have h4 : (c / 4096 + 224) >>> 4 = 14 := by rw [shiftr4]; omega
        have hm1 : (c / 64 % 64 + 128) % 256 = c / 64 % 64 + 128 := by omega
        have h6a : (c / 64 % 64 + 128) >>> 6 = 2 := by rw [shiftr6]; omega
        have hm2 : (c % 64 + 128) % 256 = c % 64 + 128 := by omega
        have h6b : (c % 64 + 128) >>> 6 = 2 := by rw [shiftr6]; omega
        have f1 : (c / 4096 + 224) &&& 15 = c / 4096 := by rw [and15]; omega
        have f2 : (c / 64 % 64 + 128) &&& 63 = c / 64 % 64 := by
          rw [and63]; omega
        have f3 : (c % 64 + 128) &&& 63 = c % 64 := by rw [and63]; omega
        have g1 : (c / 4096) <<< 12 = c / 4096 * 4096 := by
          rw [Nat.shiftLeft_eq]
        have g2 : (c / 64 % 64) <<< 6 = c / 64 % 64 * 64 := by
          rw [Nat.shiftLeft_eq]
        have g3 : c / 4096 * 4096 ||| c / 64 % 64 * 64 =
            c / 4096 * 4096 + c / 64 % 64 * 64 :=
          or_mul_4096_add (by omega)
        have g4 : c / 4096 * 4096 + c / 64 % 64 * 64 ||| c % 64 = c := by
          rw [show c / 4096 * 4096 + c / 64 % 64 * 64 =
            (c / 4096 * 64 + c / 64 % 64) * 64 from by ring]
          rw [or_mul_64_add (by omega)]
          omega
        simp [eat_utf8, hm0, hne0, h7, h5, h4, hm1, h6a, hm2, h6b, f1, f2, f3,
          g1, g2, g3, g4]
      · -- four-byte encoding
        have h4r : c ≤ 0x1FFFFF := by omega
        simp only [put_unicode] at hbs
        rw [if_neg h1, if_neg h2, if_neg h3, if_pos h4r] at hbs
        have ha : c / 262144 < 8 := by omega
        have e1 : (c >>> 18 &&& 7) ||| 240 = c / 262144 + 240 := by
          rw [shiftr18, and7, lor240_of_lt (c / 262144 % 8) (by omega)]
          omega
        have e2 : (c >>> 12 &&& 63) ||| 128 = c / 4096 % 64 + 128 := by
          rw [shiftr12, and63, lor128_of_lt (c / 4096 % 64) (by omega)]
        have e3 : (c >>> 6 &&& 63) ||| 128 = c / 64 % 64 + 128 := by
          rw [shiftr6, and63, lor128_of_lt (c / 64 % 64) (by omega)]
        have e4 : (c &&& 63) ||| 128 = c % 64 + 128 := by
          rw [and63, lor128_of_lt (c % 64) (by omega)]
        rw [e1, e2, e3, e4] at hbs
        injection hbs with hbs
        subst hbs
        have hm0 : (c / 262144 + 240) % 256 = c / 262144 + 240 := by omega
        have hne0 : ¬(c / 262144 + 240 = 0) := by omega
        have h7 : ¬((c / 262144 + 240) >>> 7 = 0) := by rw [shiftr7]; omega
        have h5 : ¬((c / 262144 + 240) >>> 5 = 6) := by rw [shiftr5]; omega
        have h4 : ¬((c / 262144 + 240) >>> 4 = 14) := by rw [shiftr4]; omega
        have h3b : (c / 262144 + 240) >>> 3 = 30 := by rw [shiftr3]; omega
        have hm1 : (c / 4096 % 64 + 128) % 256 = c / 4096 % 64 + 128 := by omega
        have h6a : (c / 4096 % 64 + 128) >>> 6 = 2 := by rw [shiftr6]; omega
        have hm2 : (c / 64 % 64 + 128) % 256 = c / 64 % 64 + 128 := by omega
        have h6b : (c / 64 % 64 + 128) >>> 6 = 2 := by rw [shiftr6]; omega
        have hm3 : (c % 64 + 128) % 256 = c % 64 + 128 := by omega
        have h6c : (c % 64 + 128) >>> 6 = 2 := by rw [shiftr6]; omega
        have f1 : (c / 262144 + 240) &&& 7 = c / 262144 := by rw [and7]; omega
        have f2 : (c / 4096 % 64 + 128) &&& 63 = c / 4096 % 64 := by
          rw [and63]; omega
        have f3 : (c / 64 % 64 + 128) &&& 63 = c / 64 % 64 := by
          rw [and63]; omega
        have f4 : (c % 64 + 128) &&& 63 = c % 64 := by rw [and63]; omega
        have g1 : (c / 262144) <<< 18 = c / 262144 * 262144 := by
          rw [Nat.shiftLeft_eq]
        have g2 : (c / 4096 % 64) <<< 12 = c / 4096 % 64 * 4096 := by
          rw [Nat.shiftLeft_eq]
        have g3 : (c / 64 % 64) <<< 6 = c / 64 % 64 * 64 := by
          rw [Nat.shiftLeft_eq]
        have g4 : c / 262144 * 262144 ||| c / 4096 % 64 * 4096 =
            c / 262144 * 262144 + c / 4096 % 64 * 4096 :=
          or_mul_262144_add (by omega)
        have g5 : c / 262144 * 262144 + c / 4096 % 64 * 4096 |||
            c / 64 % 64 * 64 =
            c / 262144 * 262144 + c / 4096 % 64 * 4096 + c / 64 % 64 * 64 := by
          rw [show c / 262144 * 262144 + c / 4096 % 64 * 4096 =
            (c / 262144 * 64 + c / 4096 % 64) * 4096 from by ring]
          rw [or_mul_4096_add (by omega)]
        have g6 : c / 262144 * 262144 + c / 4096 % 64 * 4096 +
            c / 64 % 64 * 64 ||| c % 64 = c := by
          rw [show c / 262144 * 262144 + c / 4096 % 64 * 4096 +
            c / 64 % 64 * 64 =
            (c / 262144 * 4096 + c / 4096 % 64 * 64 + c / 64 % 64) * 64
            from by ring]
          rw [or_mul_64_add (by omega)]
          omega
        simp [eat_utf8, hm0, hne0, h7, h5, h4, h3b, hm1, h6a, hm2, h6b, hm3,
          h6c, f1, f2, f3, f4, g1, g2, g3, g4, g5, g6]

/-- Witness for C9 at the four-byte code point U+1F596. -/
theorem put_unicode_eat_utf8_roundtrip_witness :
    put_unicode 0x1F596 = some [240, 159, 150, 150] ∧
    eat_utf8 ([240, 159, 150, 150] ++ [7]) = (0x1F596, [7]) :=
  ⟨by decide,
    put_unicode_eat_utf8_roundtrip 0x1F596 [7] [240, 159, 150, 150]
      (by decide) (by decide)⟩
